import Mathlib

/-!
Verification development for the dmi-radar-history repository.

The Python sources are shallowly embedded as executable Lean definitions:

* datetimes are modelled as `Int` (seconds since the Unix epoch; the code
  only compares datetimes and adds `timedelta`s, both of which are faithfully
  reflected by integer comparison and addition);
* Python `float` bounding-box coordinates are modelled as `Rat` (all decimal
  literals appearing in the sources and in the claims are taken exactly; the
  branch decisions the claims exercise have margins vastly larger than any
  binary-rounding error of the original doubles);
* 8-bit image channels are `Nat` values in `[0, 255]`;
* fallible code returns `Except String`, a `while` loop whose termination is
  in question is given explicit fuel, and an exhausted fuel models
  non-termination of the original loop.

Each section names the source file it embeds; definitions keep the Python
names (leading underscores dropped where Lean requires).
-/

set_option maxHeartbeats 1000000
set_option maxRecDepth 10000

namespace DmiRadar

/-! ## state.py -/

/-- Persisted per-layer watermark state: `state.py` keeps
`last_times : dict[str, datetime]`; a Python `dict` is modelled as an
association list with replace-or-append assignment. -/
def State := List (String × Int)

/-- Python `dict.get`: first binding of the key, if any.  Embeds
`State.latest_for` (state.py line 26). -/
def latest_for (s : State) (layer : String) : Option Int :=
  match s with
  | [] => none
  | (k, v) :: rest => if k = layer then some v else latest_for rest layer

/-- Python `dict` assignment `last_times[layer] = value`: replace the existing
binding in place, otherwise append. -/
def setKey (s : State) (layer : String) (value : Int) : State :=
  match s with
  | [] => [(layer, value)]
  | (k, v) :: rest =>
      if k = layer then (layer, value) :: rest else (k, v) :: setKey rest layer value

/-- Embeds `State.update` (state.py lines 29-32):
`if current is None or value > current: last_times[layer] = value`. -/
def update (s : State) (layer : String) (value : Int) : State :=
  match latest_for s layer with
  | none => setKey s layer value
  | some current => if current < value then setKey s layer value else s

/-- Apply a sequence of `update(layer, t)` calls in order. -/
def applyUpdates (s : State) (ops : List (String × Int)) : State :=
  ops.foldl (fun st p => update st p.1 p.2) s

/-- Order on optional watermarks: `none` is below everything. -/
def optionLE (a b : Option Int) : Prop :=
  ∀ x, a = some x → ∃ y, b = some y ∧ x ≤ y

theorem latest_for_setKey (s : State) (layer : String) (v : Int) :
    latest_for (setKey s layer v) layer = some v := by
  induction s with
  | nil => simp [setKey, latest_for]
  | cons hd tl ih =>
      obtain ⟨k, w⟩ := hd
      by_cases hk : k = layer
      · simp [setKey, hk, latest_for]
      · simp [setKey, hk, latest_for, ih]

theorem latest_for_setKey_ne (s : State) (layer other : String) (v : Int)
    (h : other ≠ layer) :
    latest_for (setKey s layer v) other = latest_for s other := by
  have hne : ¬layer = other := fun hh => h hh.symm
  induction s with
  | nil => simp [setKey, latest_for, hne]
  | cons hd tl ih =>
      obtain ⟨k, w⟩ := hd
      by_cases hk : k = layer
      · subst hk
        simp [setKey, latest_for, hne]
      · by_cases ho : k = other
        · simp [setKey, hk, latest_for, ho, h]
        · simp [setKey, hk, latest_for, ho, ih]

/-- Watermark after a single `update`: the maximum of the previous value (if
any) and the new instant. -/
theorem latest_for_update (s : State) (layer : String) (t : Int) :
    latest_for (update s layer t) layer =
      some (match latest_for s layer with
            | none => t
            | some c => max c t) := by
  unfold update
  cases h : latest_for s layer with
  | none => simp [latest_for_setKey]
  | some c =>
      by_cases hc : c < t
      · simp [hc, latest_for_setKey, max_eq_right (le_of_lt hc)]
      · simp [hc, h, max_eq_left (le_of_not_lt hc)]

theorem latest_for_update_ne (s : State) (layer other : String) (t : Int)
    (h : other ≠ layer) :
    latest_for (update s layer t) other = latest_for s other := by
  unfold update
  cases latest_for s layer with
  | none => exact latest_for_setKey_ne s layer other t h
  | some c =>
      by_cases hc : c < t
      · simp [hc, latest_for_setKey_ne s layer other t h]
      · simp [hc]

theorem update_mono (s : State) (other : String) (t : Int) :
    optionLE (latest_for s other) (latest_for (update s other t) other) := by
  intro x hx
  rw [latest_for_update, hx]
  exact ⟨max x t, rfl, le_max_left x t⟩

theorem applyUpdates_mono (ops : List (String × Int)) (s : State) (layer : String) :
    optionLE (latest_for s layer) (latest_for (applyUpdates s ops) layer) := by
  induction ops generalizing s with
  | nil => intro x hx; exact ⟨x, hx, le_refl x⟩
  | cons op rest ih =>
      intro x hx
      have step : optionLE (latest_for s layer) (latest_for (update s op.1 op.2) layer) := by
        by_cases hl : layer = op.1
        · subst hl
          intro x hx
          rw [latest_for_update, hx]
          exact ⟨max x op.2, rfl, le_max_left x op.2⟩
        · intro x hx
          rw [latest_for_update_ne s op.1 layer op.2 hl]
          exact ⟨x, hx, le_refl x⟩
      obtain ⟨y, hy, hxy⟩ := step x hx
      obtain ⟨z, hz, hyz⟩ := ih (update s op.1 op.2) y hy
      exact ⟨z, by simpa [applyUpdates] using hz, le_trans hxy hyz⟩

/-- C7: for every layer and every sequence of `update(layer, t)` calls,
`latest_for(layer)` never decreases, and after `update(layer, t)` the stored
watermark equals the maximum of the previous watermark (if any) and `t`. -/
theorem state_watermark_monotone (s : State) (layer : String) (t : Int)
    (ops : List (String × Int)) :
    latest_for (update s layer t) layer =
      some (match latest_for s layer with
            | none => t
            | some c => max c t)
    ∧ optionLE (latest_for s layer) (latest_for (applyUpdates s ops) layer) :=
  ⟨latest_for_update s layer t, applyUpdates_mono ops s layer⟩

/-- Witness for `state_watermark_monotone` at a concrete state and update
sequence. -/
theorem state_watermark_monotone_witness :
    latest_for (update [("prectype", 5)] "prectype" 3) "prectype" = some (max 5 3)
    ∧ optionLE (latest_for [("prectype", (5 : Int))] "prectype")
        (latest_for (applyUpdates [("prectype", 5)] [("prectype", 3), ("prectype", 9)]) "prectype") := by
  have h := state_watermark_monotone [("prectype", (5 : Int))] "prectype" 3
      [("prectype", 3), ("prectype", 9)]
  exact ⟨by rw [h.1]; rfl, h.2⟩

/-! ## wms.py data model and tiles.py -/

/-- Embeds `BoundingBox` (wms.py lines 13-27); Python `float` coordinates are
modelled as exact rationals. -/
structure BoundingBox where
  crs : String
  minx : Rat
  miny : Rat
  maxx : Rat
  maxy : Rat
  deriving DecidableEq, Repr

/-- Embeds `BoundingBox.width`. -/
def BoundingBox.width (b : BoundingBox) : Rat := b.maxx - b.minx

/-- Embeds `BoundingBox.height`. -/
def BoundingBox.height (b : BoundingBox) : Rat := b.maxy - b.miny

/-- Embeds `LayerInfo` (wms.py lines 30-35); times are epoch seconds. -/
structure LayerInfo where
  name : String
  title : String
  times : List Int
  bbox : Option BoundingBox
  deriving DecidableEq, Repr

/-- Embeds `TileRequest` (tiles.py lines 21-25). -/
structure TileRequest where
  bbox : BoundingBox
  width : Nat
  height : Nat
  deriving DecidableEq, Repr

/-- Embeds `TileConfig` (tiles.py lines 28-33) with its defaults. -/
structure TileConfig where
  tile_width : Nat := 512
  tile_height : Nat := 512
  resolution : Option Rat := none
  bboxes : Option (List BoundingBox) := none
  deriving DecidableEq, Repr

/-- Embeds `DEFAULT_TILE_BBOX` (tiles.py lines 12-18). -/
def DEFAULT_TILE_BBOX : BoundingBox :=
  { crs := "EPSG:3575"
    minx := -132072.7784
    miny := -3912803.2510
    maxx := 360255.4228
    maxy := -3547098.2575 }

/-- Python `str.upper()` for the ASCII CRS names the code compares. -/
def asciiUpper (s : String) : String := ⟨s.data.map Char.toUpper⟩

/-- Embeds `_contains_bbox` (tiles.py lines 83-89). -/
def contains_bbox (outer inner : BoundingBox) : Bool :=
  decide (outer.minx ≤ inner.minx) && decide (outer.miny ≤ inner.miny)
    && decide (outer.maxx ≥ inner.maxx) && decide (outer.maxy ≥ inner.maxy)

/-- Embeds `_select_extent` (tiles.py lines 73-80). -/
def select_extent (layer_bbox : Option BoundingBox) : BoundingBox :=
  match layer_bbox with
  | none => DEFAULT_TILE_BBOX
  | some b =>
      if asciiUpper b.crs ≠ asciiUpper DEFAULT_TILE_BBOX.crs then b
      else if contains_bbox b DEFAULT_TILE_BBOX then DEFAULT_TILE_BBOX
      else b

/-- Embeds `_generate_tiles` (tiles.py lines 92-122): x-major grid of
`ceil(extent / footprint)` cells per axis, minimum 1, no clipping. -/
def generate_tiles (bbox : BoundingBox) (tile_width tile_height : Nat)
    (resolution : Rat) : List TileRequest :=
  let tile_width_units : Rat := tile_width * resolution
  let tile_height_units : Rat := tile_height * resolution
  let x_count : Nat := max 1 (Int.ceil (bbox.width / tile_width_units)).toNat
  let y_count : Nat := max 1 (Int.ceil (bbox.height / tile_height_units)).toNat
  (List.range x_count).flatMap fun x_index =>
    (List.range y_count).map fun y_index =>
      let minx := bbox.minx + x_index * tile_width_units
      let miny := bbox.miny + y_index * tile_height_units
      { bbox := { crs := bbox.crs
                  minx := minx
                  miny := miny
                  maxx := minx + tile_width_units
                  maxy := miny + tile_height_units }
        width := tile_width
        height := tile_height }

/-- Embeds `resolve_tiles` (tiles.py lines 64-70).  Python truthiness:
`if config.bboxes` is false for `None` and for an empty tuple, and
`if config.resolution` is false for `None` and for `0.0`. -/
def resolve_tiles (layer : LayerInfo) (config : TileConfig) : List TileRequest :=
  if config.bboxes.getD [] ≠ [] then
    (config.bboxes.getD []).map fun bbox =>
      { bbox := bbox, width := config.tile_width, height := config.tile_height }
  else
    let extent := select_extent layer.bbox
    if config.resolution.getD 0 ≠ 0 then
      generate_tiles extent config.tile_width config.tile_height (config.resolution.getD 0)
    else
      [{ bbox := extent, width := config.tile_width, height := config.tile_height }]

/-- A layer whose bbox has the canonical CRS and encloses the default Danish
extent (the configuration exercised by `test_resolve_tiles_prefers_denmark_extent`). -/
def denmarkEnclosingBBox : BoundingBox :=
  { crs := "EPSG:3575", minx := -200000, miny := -4000000, maxx := 500000, maxy := -3000000 }

/-- C3 counterexample: with no configured bboxes and no resolution,
`resolve_tiles` does not return the layer's own bbox when that bbox (in the
canonical CRS) contains the hard-coded default extent — it returns the
default extent instead. -/
theorem resolve_tiles_not_layer_bbox :
    resolve_tiles ⟨"test", "Test", [], some denmarkEnclosingBBox⟩ {} =
      [{ bbox := DEFAULT_TILE_BBOX, width := 512, height := 512 }]
    ∧ resolve_tiles ⟨"test", "Test", [], some denmarkEnclosingBBox⟩ {} ≠
      [{ bbox := denmarkEnclosingBBox, width := 512, height := 512 }] := by
  have hcont : contains_bbox denmarkEnclosingBBox DEFAULT_TILE_BBOX = true := by
    simp only [contains_bbox, denmarkEnclosingBBox, DEFAULT_TILE_BBOX,
      Bool.and_eq_true, decide_eq_true_eq, ge_iff_le]
    norm_num
  have hcrs : asciiUpper denmarkEnclosingBBox.crs = asciiUpper DEFAULT_TILE_BBOX.crs := rfl
  have hmain : resolve_tiles ⟨"test", "Test", [], some denmarkEnclosingBBox⟩ {} =
      [{ bbox := DEFAULT_TILE_BBOX, width := 512, height := 512 }] := by
    simp [resolve_tiles, select_extent, hcrs, hcont]
  refine ⟨hmain, ?_⟩
  rw [hmain]
  intro h
  injection h with h1 h2
  have hx := congrArg (fun t : TileRequest => t.bbox.minx) h1
  simp only [denmarkEnclosingBBox, DEFAULT_TILE_BBOX] at hx
  norm_num at hx

/-- C3 amended: with no configured bbox list and no resolution,
`resolve_tiles` returns exactly one `TileRequest` with the configured pixel
size, whose bbox is the layer's bbox — except that a layer bbox in the
canonical CRS (case-insensitive `EPSG:3575`) that contains the hard-coded
default extent is replaced by that default extent. -/
theorem resolve_tiles_single_tile (layer : LayerInfo) (config : TileConfig)
    (b : BoundingBox) (hb : layer.bbox = some b) (hboxes : config.bboxes = none)
    (hres : config.resolution = none) :
    resolve_tiles layer config =
      [{ bbox := select_extent (some b), width := config.tile_width, height := config.tile_height }]
    ∧ (asciiUpper b.crs ≠ "EPSG:3575" → select_extent (some b) = b)
    ∧ (asciiUpper b.crs = "EPSG:3575" → contains_bbox b DEFAULT_TILE_BBOX = true →
        select_extent (some b) = DEFAULT_TILE_BBOX)
    ∧ (asciiUpper b.crs = "EPSG:3575" → contains_bbox b DEFAULT_TILE_BBOX = false →
        select_extent (some b) = b) := by
  have hdef : asciiUpper DEFAULT_TILE_BBOX.crs = "EPSG:3575" := rfl
  refine ⟨?_, ?_, ?_, ?_⟩
  · simp [resolve_tiles, hboxes, hres, hb]
  · intro hcrs
    simp [select_extent, hdef, hcrs]
  · intro hcrs hcont
    simp [select_extent, hdef, hcrs, hcont]
  · intro hcrs hcont
    simp [select_extent, hdef, hcrs, hcont]

/-- Witness for `resolve_tiles_single_tile` at a concrete layer and
configuration. -/
theorem resolve_tiles_single_tile_witness :
    resolve_tiles ⟨"test", "Test", [], some denmarkEnclosingBBox⟩ {} =
      [{ bbox := select_extent (some denmarkEnclosingBBox), width := 512, height := 512 }]
    ∧ (asciiUpper denmarkEnclosingBBox.crs = "EPSG:3575" →
        contains_bbox denmarkEnclosingBBox DEFAULT_TILE_BBOX = true →
        select_extent (some denmarkEnclosingBBox) = DEFAULT_TILE_BBOX) := by
  have h := resolve_tiles_single_tile ⟨"test", "Test", [], some denmarkEnclosingBBox⟩ {}
      denmarkEnclosingBBox rfl rfl rfl
  exact ⟨h.1, h.2.2.1⟩

/-! ## wms.py time parsing

Python exceptions and the potentially non-terminating interval `while` loop
are modelled by `PyRes`: `diverge` is an exhausted fuel supply (the original
loop never reaches its exit condition), `raised` a propagated `ValueError`,
`ok` a normal return. -/

/-- Result of running a piece of Python code that can raise or loop forever. -/
inductive PyRes (α : Type) where
  | diverge : PyRes α
  | raised : String → PyRes α
  | ok : α → PyRes α
  deriving DecidableEq, Repr

/-- Python `str.split(sep)` for a single-character separator. -/
def splitAll (sep : Char) : List Char → List (List Char)
  | [] => [[]]
  | c :: rest =>
      if c = sep then [] :: splitAll sep rest
      else
        match splitAll sep rest with
        | [] => [[c]]
        | p :: ps => (c :: p) :: ps

/-- Python `str.strip()` on a character list (ASCII whitespace). -/
def trimChars (s : List Char) : List Char :=
  ((s.dropWhile Char.isWhitespace).reverse.dropWhile Char.isWhitespace).reverse

/-- Numeric value of an ASCII digit. -/
def digitVal (c : Char) : Nat := c.toNat - 48

/-- Python `int(number)` on a string of digits (`0` for the empty string,
matching `int(number) if number else 0`). -/
def digitsToNat (ds : List Char) : Nat :=
  ds.foldl (fun n c => 10 * n + digitVal c) 0

/-- Proleptic-Gregorian leap years used by Python `datetime.date`. -/
def isLeapYear (y : Nat) : Bool :=
  (y % 4 = 0 && y % 100 ≠ 0) || y % 400 = 0

/-- Days in the months preceding month `m` of a year with leap flag. -/
def daysBeforeMonth (leap : Bool) (m : Nat) : Nat :=
  let base :=
    match m with
    | 1 => 0 | 2 => 31 | 3 => 59 | 4 => 90 | 5 => 120 | 6 => 151
    | 7 => 181 | 8 => 212 | 9 => 243 | 10 => 273 | 11 => 304 | _ => 334
  if leap && m > 2 then base + 1 else base

/-- Length of month `m` in year `y`, as validated by `datetime`. -/
def daysInMonth (y m : Nat) : Nat :=
  match m with
  | 2 => if isLeapYear y then 29 else 28
  | 4 => 30 | 6 => 30 | 9 => 30 | 11 => 30
  | _ => 31

/-- Leap years strictly before year `y` (proleptic Gregorian). -/
def leapsBefore (y : Nat) : Nat := (y - 1) / 4 - (y - 1) / 100 + (y - 1) / 400

/-- Python `date.toordinal()`: day number with 0001-01-01 as day 1. -/
def toOrdinal (y m d : Nat) : Nat :=
  365 * (y - 1) + leapsBefore y + daysBeforeMonth (isLeapYear y) m + d

/-- Seconds since the Unix epoch of a naive civil datetime; `toOrdinal 1970 1 1
= 719163`. -/
def naiveEpoch (y mo d h mi s : Nat) : Int :=
  ((toOrdinal y mo d : Int) - 719163) * 86400 + h * 3600 + mi * 60 + s

/-- The shared `ValueError` message for an unparsable timestamp. -/
def isoErr : String := "ValueError: invalid isoformat string"

/-- Validated naive timestamp from its digit characters: `none` exactly when a
character is not a digit or a field is out of the `datetime` ranges. -/
def mkNaive (y1 y2 y3 y4 mo1 mo2 d1 d2 h1 h2 mi1 mi2 s1 s2 : Char) : Option Int :=
  if ([y1, y2, y3, y4, mo1, mo2, d1, d2, h1, h2, mi1, mi2, s1, s2].all Char.isDigit) then
    let y := digitsToNat [y1, y2, y3, y4]
    let mo := digitsToNat [mo1, mo2]
    let d := digitsToNat [d1, d2]
    let h := digitsToNat [h1, h2]
    let mi := digitsToNat [mi1, mi2]
    let s := digitsToNat [s1, s2]
    if 1 ≤ y ∧ 1 ≤ mo ∧ mo ≤ 12 ∧ 1 ≤ d ∧ d ≤ daysInMonth y mo
        ∧ h ≤ 23 ∧ mi ≤ 59 ∧ s ≤ 59 then
      some (naiveEpoch y mo d h mi s)
    else none
  else none

/-- Models CPython `datetime.fromisoformat` for the timestamp shapes the
repository exchanges: `YYYY-MM-DD`, `YYYY-MM-DDTHH:MM:SS`, and the latter with
a `+HH:MM`/`-HH:MM` offset (the shape `_parse_time` produces by rewriting a
trailing `Z`).  Returns the naive epoch seconds and the optional UTC offset in
seconds; `none` models `ValueError`. -/
def fromisochars : List Char → Option (Int × Option Int)
  | [y1, y2, y3, y4, '-', mo1, mo2, '-', d1, d2] =>
      (mkNaive y1 y2 y3 y4 mo1 mo2 d1 d2 '0' '0' '0' '0' '0' '0').map fun n => (n, none)
  | [y1, y2, y3, y4, '-', mo1, mo2, '-', d1, d2, 'T',
     h1, h2, ':', mi1, mi2, ':', s1, s2] =>
      (mkNaive y1 y2 y3 y4 mo1 mo2 d1 d2 h1 h2 mi1 mi2 s1 s2).map fun n => (n, none)
  | [y1, y2, y3, y4, '-', mo1, mo2, '-', d1, d2, 'T',
     h1, h2, ':', mi1, mi2, ':', s1, s2, sign, o1, o2, ':', o3, o4] =>
      match mkNaive y1 y2 y3 y4 mo1 mo2 d1 d2 h1 h2 mi1 mi2 s1 s2 with
      | none => none
      | some n =>
          if ([o1, o2, o3, o4].all Char.isDigit) ∧ (sign = '+' ∨ sign = '-') then
            let oh := digitsToNat [o1, o2]
            let om := digitsToNat [o3, o4]
            if oh ≤ 23 ∧ om ≤ 59 then
              let off : Int := oh * 3600 + om * 60
              some (n, some (if sign = '-' then -off else off))
            else none
          else none
  | _ => none

/-- Embeds `_parse_time` (wms.py lines 71-78): strip, rewrite a trailing `Z`
to `+00:00`, parse, and interpret a naive result as UTC. -/
def parse_time_chars (value : List Char) : Except String Int :=
  let v := trimChars value
  let v2 := if v.getLast? = some 'Z' then v.dropLast ++ ['+', '0', '0', ':', '0', '0'] else v
  match fromisochars v2 with
  | none => .error isoErr
  | some (n, off) => .ok (n - off.getD 0)

/-- Embeds the character scan of `parse_segment` (wms.py lines 89-100):
accumulate digits, reset on any other character, stop at the designator. -/
def segScan (designator : Char) : List Char → List Char → List Char
  | acc, [] => acc
  | acc, c :: rest =>
      if c.isDigit then segScan designator (acc ++ [c]) rest
      else if c = designator then acc
      else segScan designator [] rest

/-- Embeds `parse_segment` (wms.py lines 89-100). -/
def parse_segment (segment : List Char) (designator : Char) : Nat :=
  if designator ∈ segment then digitsToNat (segScan designator [] segment) else 0

/-- Python `str.split("T", 1)` combined with the `"T" in date_part` guard of
`_parse_duration`: text before the first `T` and text after it (empty when
there is no `T`). -/
def splitAtFirstT : List Char → List Char × List Char
  | [] => ([], [])
  | c :: rest =>
      if c = 'T' then ([], rest)
      else
        let p := splitAtFirstT rest
        (c :: p.1, p.2)

/-- Embeds `_parse_duration` (wms.py lines 81-118), returning the
`timedelta` in seconds; `none` when the value does not start with `P` or has
a year or month component. -/
def parse_duration_chars (value : List Char) : Option Int :=
  match value with
  | 'P' :: rest =>
      let parts := splitAtFirstT rest
      let date_part := parts.1
      let time_part := parts.2
      let years := parse_segment date_part 'Y'
      let months := parse_segment date_part 'M'
      let weeks := parse_segment date_part 'W'
      let days := parse_segment date_part 'D'
      let hours := parse_segment time_part 'H'
      let minutes := parse_segment time_part 'M'
      let seconds := parse_segment time_part 'S'
      if years ≠ 0 ∨ months ≠ 0 then none
      else some (((days + weeks * 7) * 86400 + hours * 3600 + minutes * 60 + seconds : Nat) : Int)
  | _ => none

/-- Embeds the interval `while` loop of `_parse_time_value` (wms.py lines
56-61): `while current <= end: times.append(current); current += step`, with
explicit fuel. -/
def expandLoop (e step : Int) : Nat → Int → PyRes (List Int)
  | 0, _ => .diverge
  | fuel + 1, current =>
      if current ≤ e then
        match expandLoop e step fuel (current + step) with
        | .ok l => .ok (current :: l)
        | r => r
      else .ok []

/-- Embeds the comma branch of `_parse_time_value` (wms.py lines 62-68):
parse each non-empty stripped item, propagating any `ValueError`. -/
def commaBranch : List (List Char) → PyRes (List Int)
  | [] => .ok []
  | item :: rest =>
      let it := trimChars item
      if it = [] then commaBranch rest
      else
        match parse_time_chars it with
        | .error e => .raised e
        | .ok t =>
            match commaBranch rest with
            | .ok l => .ok (t :: l)
            | r => r

/-- Embeds `_parse_time_value` (wms.py lines 44-68).  When the value contains
`/` and splits into exactly three parts the interval branch runs; otherwise —
including a `/`-containing value with the wrong part count — control falls
through to the comma branch. -/
def parse_time_value (fuel : Nat) (value : String) : PyRes (List Int) :=
  let v := trimChars value.data
  if v = [] then .ok []
  else if '/' ∈ v then
    match splitAll '/' v with
    | [p0, p1, p2] =>
        (match parse_time_chars p0 with
         | .error msg => .raised msg
         | .ok startv =>
            match parse_time_chars p1 with
            | .error msg => .raised msg
            | .ok endv =>
                match parse_duration_chars p2 with
                | none => .ok []
                | some step => expandLoop endv step fuel startv)
    | _ => commaBranch (splitAll ',' v)
  else commaBranch (splitAll ',' v)

/-- The instants the interval loop appends: `start, start+step, ...`, `n` of
them. -/
def progression (start step : Int) : Nat → List Int
  | 0 => []
  | n + 1 => start :: progression (start + step) step n

/-- Number of loop iterations for a positive step. -/
def progCount (start e step : Int) : Nat :=
  if start ≤ e then (e - start).toNat / step.toNat + 1 else 0

theorem expandLoop_nonpos_diverge (e step : Int) (hstep : step ≤ 0) :
    ∀ (fuel : Nat) (current : Int), current ≤ e →
      expandLoop e step fuel current = PyRes.diverge := by
  intro fuel
  induction fuel with
  | zero => intro current _; rfl
  | succ f ih =>
      intro current h
      have hnext := ih (current + step) (by omega)
      simp only [expandLoop, if_pos h, hnext]

theorem expandLoop_pos_eq (step : Int) (hstep : 0 < step) :
    ∀ (fuel : Nat) (e start : Int), (e - start).toNat + 1 < fuel →
      expandLoop e step fuel start =
        PyRes.ok (progression start step (progCount start e step)) := by
  intro fuel
  induction fuel with
  | zero => intro e start h; omega
  | succ f ih =>
      intro e start h
      by_cases hle : start ≤ e
      · have hcnt : progCount start e step = (e - start).toNat / step.toNat + 1 :=
          if_pos hle
        by_cases hnext : start + step ≤ e
        · have hrec := ih e (start + step) (by omega)
          have hcnt' : progCount (start + step) e step =
              (e - start).toNat / step.toNat := by
            have hsub : (e - (start + step)).toNat = (e - start).toNat - step.toNat := by
              omega
            have hba : step.toNat ≤ (e - start).toNat := by omega
            have hdiv := Nat.div_eq_sub_div (by omega : 0 < step.toNat) hba
            simp only [progCount, if_pos hnext, hsub]
            omega
          simp only [expandLoop, if_pos hle, hrec, hcnt, hcnt']
          simp [progression]
        · obtain ⟨f', rfl⟩ : ∃ f', f = f' + 1 := ⟨f - 1, by omega⟩
          have hinner : expandLoop e step (f' + 1) (start + step) = PyRes.ok [] := by
            simp [expandLoop, hnext]
          have hdiv0 : (e - start).toNat / step.toNat = 0 :=
            Nat.div_eq_of_lt (by omega)
          rw [hcnt, hdiv0]
          conv_lhs => rw [expandLoop]
          rw [if_pos hle, hinner]
          simp [progression]
      · simp [expandLoop, hle, progCount, progression]

theorem progression_mem (step : Int) :
    ∀ (n : Nat) (start t : Int),
      t ∈ progression start step n ↔ ∃ i : Nat, i < n ∧ t = start + i * step := by
  intro n
  induction n with
  | zero => intro start t; simp [progression]
  | succ m ih =>
      intro start t
      simp only [progression, List.mem_cons, ih]
      constructor
      · rintro (rfl | ⟨i, hi, rfl⟩)
        · exact ⟨0, by omega, by ring⟩
        · exact ⟨i + 1, by omega, by push_cast; ring⟩
      · rintro ⟨i, hi, rfl⟩
        match i with
        | 0 => left; ring
        | j + 1 => right; exact ⟨j, by omega, by push_cast; ring⟩

theorem progCount_mem (startv e step : Int) (hstep : 0 < step) (t : Int) :
    t ∈ progression startv step (progCount startv e step) ↔
      ∃ i : Nat, t = startv + i * step ∧ t ≤ e := by
  rw [progression_mem]
  constructor
  · rintro ⟨i, hi, rfl⟩
    refine ⟨i, rfl, ?_⟩
    have hle : startv ≤ e := by
      by_contra hgt
      simp [progCount, hgt] at hi
    have hcnt : progCount startv e step = (e - startv).toNat / step.toNat + 1 :=
      if_pos hle
    rw [hcnt] at hi
    have hile : i ≤ (e - startv).toNat / step.toNat := by omega
    have hmul : i * step.toNat ≤ (e - startv).toNat :=
      (Nat.le_div_iff_mul_le (by omega)).mp hile
    have : (i : Int) * step ≤ e - startv := by
      have := Int.ofNat_le.mpr hmul
      push_cast at this
      rw [Int.toNat_of_nonneg (by omega : (0 : Int) ≤ e - startv)] at this
      rw [Int.toNat_of_nonneg (by omega : (0 : Int) ≤ step)] at this
      exact this
    omega
  · rintro ⟨i, rfl, hle⟩
    refine ⟨i, ?_, rfl⟩
    have hse : startv ≤ e := by nlinarith [Int.natCast_nonneg i, hstep]
    have hcnt : progCount startv e step = (e - startv).toNat / step.toNat + 1 :=
      if_pos hse
    rw [hcnt]
    have hmul : i * step.toNat ≤ (e - startv).toNat := by
      have h1 : (i : Int) * step ≤ e - startv := by omega
      have h2 : ((i * step.toNat : Nat) : Int) ≤ ((e - startv).toNat : Int) := by
        push_cast
        rw [Int.toNat_of_nonneg (by omega : (0 : Int) ≤ e - startv),
          Int.toNat_of_nonneg (by omega : (0 : Int) ≤ step)]
        exact h1
      exact_mod_cast h2
    have := (Nat.le_div_iff_mul_le (by omega : 0 < step.toNat)).mpr hmul
    omega

/-- C8: for a three-part interval whose period has only day/week/hour/minute/
second components and is positive, the expansion is exactly
`start, start+period, start+2*period, ...` for as long as the value is `<=
end`; the `PT1H` example expands to exactly the three instants 00:00, 01:00,
02:00 UTC of 2025-01-01; and a period with a year or month component parses
to `None`, so the interval yields no times. -/
theorem interval_expansion_correct (startv endv step : Int) (hstep : 0 < step) :
    (∀ fuel : Nat, (endv - startv).toNat + 1 < fuel →
        expandLoop endv step fuel startv =
          PyRes.ok (progression startv step (progCount startv endv step)))
    ∧ (∀ t : Int, t ∈ progression startv step (progCount startv endv step) ↔
        ∃ i : Nat, t = startv + i * step ∧ t ≤ endv)
    ∧ parse_time_value 5 "2025-01-01T00:00:00Z/2025-01-01T02:00:00Z/PT1H" =
        PyRes.ok [1735689600, 1735693200, 1735696800]
    ∧ (∀ d : List Char,
        parse_segment (splitAtFirstT d).1 'Y' ≠ 0 ∨ parse_segment (splitAtFirstT d).1 'M' ≠ 0 →
          parse_duration_chars ('P' :: d) = none)
    ∧ parse_time_value 5 "2025-01-01T00:00:00Z/2025-12-31T00:00:00Z/P1M" =
        PyRes.ok [] := by
  refine ⟨fun fuel h => expandLoop_pos_eq step hstep fuel endv startv h,
    progCount_mem startv endv step hstep, by decide, ?_, by decide⟩
  intro d hd
  simp only [parse_duration_chars, if_pos hd]

/-- Witness for `interval_expansion_correct` on the interval 0..7200 with
step 3600 (the `PT1H` example in epoch-relative seconds). -/
theorem interval_expansion_correct_witness :
    expandLoop 7200 3600 7202 0 = PyRes.ok (progression 0 3600 (progCount 0 7200 3600))
    ∧ progression 0 3600 (progCount 0 7200 3600) = [0, 3600, 7200] :=
  ⟨(interval_expansion_correct 0 7200 3600 (by decide)).1 7202 (by decide), by decide⟩

/-- C10: a syntactically valid interval whose period parses to the zero
timedelta (`PT0S`) makes the expansion loop run forever when `start <= end`
(every fuel bound is exhausted); in general the loop diverges whenever the
parsed period is not strictly positive and `start <= end`, and terminates for
every strictly positive period. -/
theorem interval_zero_period_diverges :
    (∀ fuel : Nat,
        parse_time_value fuel "2025-01-01T00:00:00Z/2025-01-01T00:00:00Z/PT0S" =
          PyRes.diverge)
    ∧ (∀ e step startv : Int, startv ≤ e → step ≤ 0 →
        ∀ fuel : Nat, expandLoop e step fuel startv = PyRes.diverge)
    ∧ (∀ e step startv : Int, 0 < step →
        ∃ (fuel : Nat) (l : List Int), expandLoop e step fuel startv = PyRes.ok l) := by
  refine ⟨?_, fun e step startv hse hstep fuel =>
      expandLoop_nonpos_diverge e step hstep fuel startv hse, ?_⟩
  · intro fuel
    have hred : parse_time_value fuel "2025-01-01T00:00:00Z/2025-01-01T00:00:00Z/PT0S" =
        expandLoop 1735689600 0 fuel 1735689600 := rfl
    rw [hred]
    exact expandLoop_nonpos_diverge 1735689600 0 (by decide) fuel 1735689600 (by decide)
  · intro e step startv hstep
    exact ⟨(e - startv).toNat + 2, progression startv step (progCount startv e step),
      expandLoop_pos_eq step hstep _ e startv (by omega)⟩

/-- Witness for `interval_zero_period_diverges` at concrete loop bounds. -/
theorem interval_zero_period_diverges_witness :
    expandLoop 5 0 3 0 = PyRes.diverge
    ∧ ∃ (fuel : Nat) (l : List Int), expandLoop 5 1 fuel 0 = PyRes.ok l :=
  ⟨interval_zero_period_diverges.2.1 5 0 0 (by decide) (by decide) 3,
    interval_zero_period_diverges.2.2 5 1 0 (by decide)⟩

/-- C5: a time value containing `/` that does not split into exactly three
parts is not recovered as an empty list: control falls through to the
comma-separated-timestamps branch, whose `_parse_time` raises `ValueError`
on the slash-containing item (shown at the failing input "a/b"), so the
error is fatal rather than yielding no times. -/
theorem malformed_interval_raises :
    ∀ fuel : Nat, parse_time_value fuel "a/b" = PyRes.raised isoErr := by
  intro fuel
  rfl

/-! ## stacker.py: image stacking

Images are RGBA rasters: a pixel is four 8-bit channels, an image a width,
a height and a row-major pixel list.  The Pillow primitives the code calls
are embedded at the integer level:

* `ImageChops.lighter`/`darker` are channel-wise `max`/`min`;
* `ImageChops.subtract` (default scale/offset) clamps `a - b` to `[0, 255]`;
* `Image.point` applies a function per channel value; the mask built in
  `_stack_images` only produces the values 255 and 0, which we carry as a
  `Bool` per pixel (`true` = 255);
* `Image.composite(f, o, mask)` with such a binary mask selects the pixel of
  `f` where the mask is 255 and of `o` where it is 0;
* `Image.alpha_composite(dst, src)` follows Pillow's integer implementation
  (`AlphaComposite.c`): a source pixel with alpha 0 leaves the destination
  pixel; otherwise the channels are mixed with 7 extra precision bits and
  the `SHIFTFORDIV255` rounding `(x + (x >> 8)) >> 8` applied to `x + 0x80`.
-/

/-- An 8-bit RGBA pixel. -/
structure Pixel where
  r : Nat
  g : Nat
  b : Nat
  a : Nat
  deriving DecidableEq, Repr

/-- An RGBA image: `size` is `(w, h)`; `px` is row-major of length `w * h`. -/
structure Img where
  w : Nat
  h : Nat
  px : List Pixel
  deriving DecidableEq, Repr

/-- Pillow's `SHIFTFORDIV255` rounding helper: `(a + (a >> 8)) >> 8`. -/
def shiftForDiv255 (a : Nat) : Nat := (a / 256 + a) / 256

/-- One output pixel of Pillow's `Image.alpha_composite(dst, src)` (the
integer algorithm of `AlphaComposite.c`, `PRECISION_BITS = 7`). -/
def alphaCompositePixel (dst src : Pixel) : Pixel :=
  if src.a = 0 then dst
  else
    let blend := dst.a * (255 - src.a)
    let outa255 := src.a * 255 + blend
    let coef1 := src.a * 255 * 255 * 128 / outa255
    let coef2 := 255 * 128 - coef1
    { r := shiftForDiv255 (src.r * coef1 + dst.r * coef2 + 16384) / 128
      g := shiftForDiv255 (src.g * coef1 + dst.g * coef2 + 16384) / 128
      b := shiftForDiv255 (src.b * coef1 + dst.b * coef2 + 16384) / 128
      a := shiftForDiv255 (outa255 + 128) }

/-- `Image.alpha_composite(dst, src)` pixel-wise. -/
def alphaCompositeImg (dst src : Img) : Img :=
  { w := dst.w, h := dst.h, px := List.zipWith alphaCompositePixel dst.px src.px }

/-- One value of the chroma band built by `_compute_chroma` (stacker.py lines
37-43): `subtract(lighter(lighter(r, g), b), darker(darker(r, g), b))`; the
`convert("RGB")` drops alpha, and the clamped subtraction of `max` minus
`min` is plain truncated subtraction. -/
def chromaPixel (p : Pixel) : Nat :=
  min 255 (max (max p.r p.g) p.b - min (min p.r p.g) p.b)

/-- Embeds `_compute_chroma`: the chroma band of an image. -/
def compute_chroma (im : Img) : List Nat := im.px.map chromaPixel

/-- One step of the subsequent-frame branch of `_stack_images` (stacker.py
lines 154-157): mask where the clamped chroma difference exceeds 18, then
composite the frame over the output under that mask. -/
def stackStep (base_chroma : List Nat) (output frame : Img) : Img :=
  let frame_chroma := compute_chroma frame
  let diff := List.zipWith (fun fc bc => min 255 (fc - bc)) frame_chroma base_chroma
  let mask := diff.map (fun v => decide (v > 18))
  { w := output.w, h := output.h
    px := List.zipWith3 (fun m fp op => if m then fp else op) mask frame.px output.px }

/-- The per-frame loop of `_stack_images` (stacker.py lines 142-158) after
the base chroma has been fixed. -/
def stackLoop (base_chroma : List Nat) (output : Img) (used : Nat) :
    List Img → Except String (Img × Nat)
  | [] => .ok (output, used)
  | frame :: rest =>
      if (frame.w, frame.h) ≠ (output.w, output.h) then
        .error "Mismatched tile sizes while stacking"
      else
        stackLoop base_chroma (stackStep base_chroma output frame) (used + 1) rest

/-- Embeds `_stack_images` (stacker.py lines 129-161).  With a base image the
base fixes the chroma reference and the output starts as the base; otherwise
the first frame fixes the chroma reference and the output starts as
`alpha_composite(frame.copy(), frame)` — the frame composited over itself. -/
def stack_images (paths : List Img) (base_path : Option Img) :
    Except String (Img × Nat) :=
  match base_path, paths with
  | none, [] => .error "No images provided for stacking."
  | some base, frames => stackLoop (compute_chroma base) base 0 frames
  | none, frame :: rest =>
      stackLoop (compute_chroma frame) (alphaCompositeImg frame frame) 1 rest

theorem zipWith3_getElem? {α β γ δ : Type} (f : α → β → γ → δ) :
    ∀ (as : List α) (bs : List β) (cs : List γ) (i : Nat) (a : α) (b : β) (c : γ),
      as[i]? = some a → bs[i]? = some b → cs[i]? = some c →
      (List.zipWith3 f as bs cs)[i]? = some (f a b c) := by
  intro as
  induction as with
  | nil => intro bs cs i a b c ha; simp at ha
  | cons x as ih =>
      intro bs cs i a b c ha hb hc
      cases bs with
      | nil => simp at hb
      | cons y bs =>
          cases cs with
          | nil => simp at hc
          | cons z cs =>
              cases i with
              | zero =>
                  simp at ha hb hc
                  subst ha; subst hb; subst hc
                  simp [List.zipWith3]
              | succ j =>
                  simp only [List.getElem?_cons_succ] at ha hb hc
                  simpa [List.zipWith3] using ih bs cs j a b c ha hb hc

/-- C1 amended: in the fold of `_stack_images`, each frame after the first
(or after a base image) updates the accumulating output by `stackStep`
against the frozen base chroma, and at each pixel the output is replaced by
the frame's pixel exactly when the frame's chroma exceeds the base chroma by
more than 18 (the clamped subtraction `frame - base`, not the absolute
difference); at all other pixels the accumulating pixel is kept. -/
theorem stacking_pixel_rule (bc : List Nat) (output frame : Img)
    (i : Nat) (fp op : Pixel) (cb : Nat)
    (hfp : frame.px[i]? = some fp) (hop : output.px[i]? = some op)
    (hcb : bc[i]? = some cb) :
    (stackStep bc output frame).px[i]? =
      some (if cb + 18 < chromaPixel fp then fp else op)
    ∧ (∀ (out : Img) (used : Nat) (f : Img) (rest : List Img),
        f.w = out.w → f.h = out.h →
        stackLoop bc out used (f :: rest) =
          stackLoop bc (stackStep bc out f) (used + 1) rest)
    ∧ (∀ (base : Img) (frames : List Img),
        stack_images frames (some base) =
          stackLoop (compute_chroma base) base 0 frames) := by
  refine ⟨?_, ?_, fun base frames => rfl⟩
  · have hchroma : (compute_chroma frame)[i]? = some (chromaPixel fp) := by
      simp [compute_chroma, List.getElem?_map, hfp]
    have hmask : (List.zipWith (fun fc bc => min 255 (fc - bc))
        (compute_chroma frame) bc)[i]? = some (min 255 (chromaPixel fp - cb)) := by
      rw [List.getElem?_zipWith']
      simp [hchroma, hcb]
    have hmaskb : ((List.zipWith (fun fc bc => min 255 (fc - bc))
        (compute_chroma frame) bc).map (fun v => decide (v > 18)))[i]? =
        some (decide (18 < min 255 (chromaPixel fp - cb))) := by
      simp [List.getElem?_map, hmask]
    have hsel := zipWith3_getElem? (fun m fp op => if m then fp else op) _ _ _ i
      (decide (18 < min 255 (chromaPixel fp - cb))) fp op hmaskb hfp hop
    have hiff : (18 < min 255 (chromaPixel fp - cb)) ↔ (cb + 18 < chromaPixel fp) := by
      omega
    simp only [stackStep]
    rw [hsel]
    simp only [decide_eq_true_eq, hiff]
  · intro out used f rest hw hh
    simp [stackLoop, hw, hh]

/-- Witness for `stacking_pixel_rule` at a concrete pixel where the frame's
chroma does not exceed the base chroma (so the output pixel is kept). -/
theorem stacking_pixel_rule_witness :
    (stackStep [255] (Img.mk 1 1 [Pixel.mk 255 0 0 255])
        (Img.mk 1 1 [Pixel.mk 100 100 100 255])).px[0]? =
      some (if 255 + 18 < chromaPixel (Pixel.mk 100 100 100 255)
            then Pixel.mk 100 100 100 255 else Pixel.mk 255 0 0 255) :=
  (stacking_pixel_rule [255] (Img.mk 1 1 [Pixel.mk 255 0 0 255])
    (Img.mk 1 1 [Pixel.mk 100 100 100 255]) 0
    (Pixel.mk 100 100 100 255) (Pixel.mk 255 0 0 255) 255 rfl rfl rfl).1

/-- C1 counterexample: stacking a saturated red frame and then a gray frame,
the absolute chroma difference is 255 > 18, yet the gray frame's pixel does
not replace the output (the clamped signed difference is 0), so replacement
is not governed by the absolute difference. -/
theorem stacking_mask_not_absolute :
    stack_images [Img.mk 1 1 [Pixel.mk 255 0 0 255], Img.mk 1 1 [Pixel.mk 100 100 100 255]]
        none =
      .ok (Img.mk 1 1 [Pixel.mk 255 0 0 255], 2)
    ∧ 18 < Int.natAbs ((chromaPixel (Pixel.mk 100 100 100 255) : Int) -
        (chromaPixel (Pixel.mk 255 0 0 255) : Int))
    ∧ Pixel.mk 255 0 0 255 ≠ Pixel.mk 100 100 100 255 := by
  refine ⟨rfl, by decide, by decide⟩

theorem mixCoef255 : ∀ c : Fin 256, shiftForDiv255 (c.val * 32640 + 16384) / 128 = c.val := by
  decide

theorem alphaCompositePixel_self (p : Pixel)
    (hr : p.r ≤ 255) (hg : p.g ≤ 255) (hb : p.b ≤ 255) (ha : p.a = 0 ∨ p.a = 255) :
    alphaCompositePixel p p = p := by
  rcases ha with ha | ha
  · simp [alphaCompositePixel, ha]
  · have hmix : ∀ c : Nat, c ≤ 255 → shiftForDiv255 (c * 32640 + 16384) / 128 = c := by
      intro c hc
      exact mixCoef255 ⟨c, by omega⟩
    have h255 : ¬(255 = 0) := by decide
    obtain ⟨r, g, b, a⟩ := p
    simp only at ha hr hg hb
    subst ha
    simp only [alphaCompositePixel, h255, if_false, Pixel.mk.injEq]
    norm_num
    exact ⟨hmix r hr, hmix g hg, hmix b hb, by decide⟩

theorem alphaCompositeImg_self (f : Img)
    (hvalid : ∀ p ∈ f.px, p.r ≤ 255 ∧ p.g ≤ 255 ∧ p.b ≤ 255 ∧ (p.a = 0 ∨ p.a = 255)) :
    alphaCompositeImg f f = f := by
  obtain ⟨w, h, px⟩ := f
  simp only [alphaCompositeImg]
  congr 1
  induction px with
  | nil => rfl
  | cons p rest ih =>
      have hp := hvalid p (by simp)
      simp only [List.zipWith]
      rw [alphaCompositePixel_self p hp.1 hp.2.1 hp.2.2.1 hp.2.2.2]
      rw [ih (fun q hq => hvalid q (by simp [hq]))]

/-- C9 amended: stacking a single frame with no base image reproduces the
frame unchanged provided each pixel is 8-bit valid and fully transparent or
fully opaque; with a partially transparent alpha the frame is
alpha-composited over itself, which changes the pixel. -/
theorem single_frame_reproduced (f : Img)
    (hvalid : ∀ p ∈ f.px, p.r ≤ 255 ∧ p.g ≤ 255 ∧ p.b ≤ 255 ∧ (p.a = 0 ∨ p.a = 255)) :
    stack_images [f] none = .ok (f, 1) := by
  show Except.ok (alphaCompositeImg f f, 1) = Except.ok (f, 1)
  rw [alphaCompositeImg_self f hvalid]

/-- Witness for `single_frame_reproduced` on a 1x1 opaque image. -/
theorem single_frame_reproduced_witness :
    stack_images [Img.mk 1 1 [Pixel.mk 5 6 7 255]] none =
      .ok (Img.mk 1 1 [Pixel.mk 5 6 7 255], 1) :=
  single_frame_reproduced (Img.mk 1 1 [Pixel.mk 5 6 7 255]) (by decide)

/-- C9 counterexample: a single frame whose only pixel has alpha 128 is not
reproduced — the self-compositing of the first frame raises its alpha to
192. -/
theorem single_frame_semitransparent_changed :
    stack_images [Img.mk 1 1 [Pixel.mk 0 0 0 128]] none =
      .ok (Img.mk 1 1 [Pixel.mk 0 0 0 192], 1)
    ∧ Img.mk 1 1 [Pixel.mk 0 0 0 192] ≠ Img.mk 1 1 [Pixel.mk 0 0 0 128] := by
  refine ⟨rfl, by decide⟩

/-- The `used_count` returned by a successful `_stack_images` equals the
number of frames folded in (every loop iteration increments it once). -/
theorem stackLoop_count (bc : List Nat) :
    ∀ (frames : List Img) (output : Img) (used : Nat) (img : Img) (n : Nat),
      stackLoop bc output used frames = .ok (img, n) → n = used + frames.length := by
  intro frames
  induction frames with
  | nil =>
      intro output used img n h
      simp only [stackLoop] at h
      cases h
      simp
  | cons f rest ih =>
      intro output used img n h
      simp only [stackLoop] at h
      by_cases hsz : (f.w, f.h) ≠ (output.w, output.h)
      · simp [hsz] at h
      · rw [if_neg hsz] at h
        have := ih (stackStep bc output f) (used + 1) img n h
        simp [this]
        omega

theorem stack_images_count (frames : List Img) (base : Option Img) (img : Img) (n : Nat)
    (h : stack_images frames base = .ok (img, n)) : n = frames.length := by
  match base, frames with
  | none, [] => simp [stack_images] at h
  | some b, fs =>
      have := stackLoop_count (compute_chroma b) fs b 0 img n h
      omega
  | none, f :: rest =>
      have := stackLoop_count (compute_chroma f) rest (alphaCompositeImg f f) 1 img n h
      simp only [List.length_cons]
      omega

/-! ## stacker.py: per-day manifest merge (count component)

`build_day_stacks` (stacker.py lines 193-246) merges, per layer and day, the
newly discovered tiles against the existing manifest entry.  For the
recorded `count` the image contents are irrelevant: a successful
`_stack_images` returns `used_count` equal to the number of frames folded
(theorem `stack_images_count`), so the merge is modelled at the level of
tile indices, frame instants and counts.  A `dict[int, ...]` of discovered
tiles appears as an association list with distinct keys iterated in sorted
key order, as `sorted(day_tiles.keys())` does. -/

/-- A manifest tile entry: index and cumulative contributing-frame count. -/
structure ManTile where
  idx : Nat
  count : Nat
  deriving DecidableEq, Repr

/-- A manifest day entry: recorded instants and tile entries. -/
structure DayEntry where
  times : List Int
  tiles : List ManTile
  deriving DecidableEq, Repr

/-- The first-match lookup of stacker.py lines 218-222 (`for tile in
existing_day["tiles"]: if tile["index"] == index: ...; break`), defaulting
to count 0. -/
def lookupTileCount (tiles : List ManTile) (index : Nat) : Nat :=
  match tiles.find? (fun t => t.idx = index) with
  | some t => t.count
  | none => 0

/-- Count component of the per-day merge of `build_day_stacks` (stacker.py
lines 193-246): `include_existing` is true only when the existing day has an
instant not re-discovered; each newly discovered index gets
`existing_count + number of new frames`, where `existing_count` is the
recorded count only under `include_existing`; indices absent from the new
discovery are carried forward verbatim; the final list is sorted by index. -/
def mergeDayCounts (existing? : Option DayEntry) (dayTiles : List (Nat × List Int)) :
    DayEntry :=
  let incoming : List Int := (dayTiles.map Prod.snd).flatten
  let existingTimes : List Int :=
    match existing? with
    | some d => d.times
    | none => []
  let mergedTimes := List.insertionSort (· ≤ ·) ((incoming ++ existingTimes).dedup)
  let include_existing := existingTimes.any (fun t => !(incoming.contains t))
  let newEntries := dayTiles.map fun p =>
    let ec :=
      if include_existing then
        match existing? with
        | some d => lookupTileCount d.tiles p.1
        | none => 0
      else 0
    ManTile.mk p.1 (ec + p.2.length)
  let carried :=
    match existing? with
    | some d => d.tiles.filter (fun t => !((dayTiles.map Prod.fst).contains t.idx))
    | none => []
  DayEntry.mk mergedTimes
    (List.insertionSort (fun a b => a.idx ≤ b.idx) (newEntries ++ carried))

/-- C4 counterexample: the existing day records instants T0, T1 and count 2
for tile 0; the new discovery re-derives exactly those instants but tile 0
now only has the frame at T0 (T1's frame belongs to tile 1).  Every existing
instant is re-discovered, so `include_existing` is false and tile 0 is
restacked from scratch: its count drops from 2 to 1. -/
theorem manifest_count_decreases :
    (mergeDayCounts (some (DayEntry.mk [0, 1] [ManTile.mk 0 2]))
        [(0, [0]), (1, [1])]).tiles = [ManTile.mk 0 1, ManTile.mk 1 1]
    ∧ lookupTileCount (mergeDayCounts (some (DayEntry.mk [0, 1] [ManTile.mk 0 2]))
        [(0, [0]), (1, [1])]).tiles 0 <
      lookupTileCount [ManTile.mk 0 2] 0 := by
  refine ⟨by decide, by decide⟩

theorem find?_idx_of_nodup (t : ManTile) :
    ∀ tiles : List ManTile, (tiles.map ManTile.idx).Nodup → t ∈ tiles →
      tiles.find? (fun u => u.idx = t.idx) = some t := by
  intro tiles
  induction tiles with
  | nil => intro _ ht; simp at ht
  | cons hd rest ih =>
      intro hnd ht
      simp only [List.map_cons, List.nodup_cons] at hnd
      rcases List.mem_cons.mp ht with rfl | hmem
      · exact List.find?_cons_of_pos _ (decide_eq_true rfl)
      · have hne : hd.idx ≠ t.idx := by
          intro he
          exact hnd.1 (he ▸ List.mem_map_of_mem ManTile.idx hmem)
        rw [List.find?_cons_of_neg _ (by simpa using hne)]
        exact ih hnd.2 hmem

/-- C4 amended: the recorded count for a tile never decreases across a merge
provided the existing day still has at least one instant not present in the
new discovery (`include_existing`); when every recorded instant is
re-discovered the tile is restacked from scratch and its count is reset to
the number of newly discovered frames, which can be smaller.  Days and
indices absent from the new discovery are carried forward with their counts
unchanged. -/
theorem manifest_count_monotone (ed : DayEntry) (dayTiles : List (Nat × List Int))
    (hinc : ∃ u ∈ ed.times, u ∉ (dayTiles.map Prod.snd).flatten)
    (hnodup : (ed.tiles.map ManTile.idx).Nodup)
    (t : ManTile) (ht : t ∈ ed.tiles) :
    ∃ t' ∈ (mergeDayCounts (some ed) dayTiles).tiles,
      t'.idx = t.idx ∧ t.count ≤ t'.count := by
  obtain ⟨u, hu, hnu⟩ := hinc
  have hie : ed.times.any
      (fun v => !(((dayTiles.map Prod.snd).flatten).contains v)) = true := by
    rw [List.any_eq_true]
    exact ⟨u, hu, by simpa using hnu⟩
  by_cases hnew : t.idx ∈ dayTiles.map Prod.fst
  · obtain ⟨p, hp, hpe⟩ := List.mem_map.mp hnew
    refine ⟨ManTile.mk p.1 (lookupTileCount ed.tiles p.1 + p.2.length), ?_, ?_, ?_⟩
    · simp only [mergeDayCounts, List.mem_insertionSort, List.mem_append]
      left
      rw [hie]
      simpa using List.mem_map_of_mem
        (fun q : Nat × List Int =>
          ManTile.mk q.1 (lookupTileCount ed.tiles q.1 + q.2.length)) hp
    · exact hpe
    · have hl : lookupTileCount ed.tiles p.1 = t.count := by
        rw [hpe, lookupTileCount, find?_idx_of_nodup t ed.tiles hnodup ht]
      show t.count ≤ lookupTileCount ed.tiles p.1 + p.2.length
      omega
  · refine ⟨t, ?_, rfl, le_refl t.count⟩
    simp only [mergeDayCounts, List.mem_insertionSort, List.mem_append]
    right
    rw [List.mem_filter]
    exact ⟨ht, by simpa using hnew⟩

/-- Witness for `manifest_count_monotone`: the existing day has instant 5
that the new discovery lacks, so tile 0's count 2 grows to 3. -/
theorem manifest_count_monotone_witness :
    ∃ t' ∈ (mergeDayCounts (some (DayEntry.mk [0, 5] [ManTile.mk 0 2]))
        [(0, [0])]).tiles, t'.idx = (ManTile.mk 0 2).idx ∧ (ManTile.mk 0 2).count ≤ t'.count :=
  manifest_count_monotone (DayEntry.mk [0, 5] [ManTile.mk 0 2]) [(0, [0])]
    ⟨5, by decide, by decide⟩ (by decide) (ManTile.mk 0 2) (by decide)

/-! ## downloader module (modelled from the spec)

The repository's tests import `dmi_radar_history.downloader`
(`_download_tile`, `_process_layer`), but that module is not among the
sources under src/ — only `app.py`, an entry point with simplified variants
of these functions, is.  The definitions below are therefore modelled from
the spec: content-type validation of a tile response (spec §4.3/§6/§7:
"response must report an image content type or the fetch is rejected and no
file is written") and the per-layer download loop ("a fetch failure ...
aborts processing for this layer at this instant — the watermark is NOT
advanced ... and all strictly-later instants for this layer are skipped this
run", while remaining layers continue and the state reached so far is
persisted).  Network responses are supplied by an oracle `fetch`, disk
presence of a tile by an oracle `existing`. -/

/-- Modelled from the spec: a successful HTTP response (content type header
and body bytes). -/
structure HttpResp where
  contentType : String
  body : List Nat
  deriving DecidableEq, Repr

/-- Modelled from the spec: the outcome of a tile GET — a transport error or
a response. -/
inductive FetchResult where
  | transportError (msg : String) : FetchResult
  | resp (r : HttpResp) : FetchResult
  deriving DecidableEq, Repr

/-- A filesystem fragment: path to bytes. -/
def FileSys := List (String × List Nat)

/-- Write a file (replace or append). -/
def fsWrite (fs : FileSys) (path : String) (bytes : List Nat) : FileSys :=
  match fs with
  | [] => [(path, bytes)]
  | (p, b) :: rest =>
      if p = path then (path, bytes) :: rest else (p, b) :: fsWrite rest path bytes

/-- Modelled from the spec: a content type reports an image exactly when it
begins with `image/`. -/
def isImageContentType (ct : String) : Bool :=
  decide (ct.data.take 6 = "image/".data)

/-- Modelled from the spec: `_download_tile` — the destination is written
only for a response with an image content type; a non-image content type or
a transport error is a failure and nothing is written. -/
def download_tile (r : FetchResult) (dest : String) (fs : FileSys) :
    FileSys × Option String :=
  match r with
  | .transportError msg => (fs, some msg)
  | .resp resp =>
      if isImageContentType resp.contentType then (fsWrite fs dest resp.body, none)
      else (fs, some ("Unexpected content type: " ++ resp.contentType))

/-- A fetch counts as successful exactly when `download_tile` reports no
error for it. -/
def fetchOk (r : FetchResult) : Bool :=
  match r with
  | .transportError _ => false
  | .resp resp => isImageContentType resp.contentType

/-- Modelled from the spec: fetch the missing tiles of one instant in index
order, recording each attempt, stopping at the first failure.  Returns the
attempts and whether all succeeded. -/
def fetchTiles (fetch : Int → Nat → FetchResult) (t : Int) :
    List Nat → List (Int × Nat) × Bool
  | [] => ([], true)
  | i :: rest =>
      if fetchOk (fetch t i) then
        let p := fetchTiles fetch t rest
        ((t, i) :: p.1, p.2)
      else ([(t, i)], false)

/-- The tile indices of instant `t` missing on disk. -/
def missingTiles (existing : Int → Nat → Bool) (tileCount : Nat) (t : Int) : List Nat :=
  (List.range tileCount).filter (fun i => !(existing t i))

/-- An instant is fully completable this run: every missing tile's fetch
succeeds (trivially so when no tile is missing). -/
def instantComplete (existing : Int → Nat → Bool) (fetch : Int → Nat → FetchResult)
    (tileCount : Nat) (t : Int) : Bool :=
  (missingTiles existing tileCount t).all (fun i => fetchOk (fetch t i))

/-- The skip condition `if last_saved and time_value <= last_saved` of the
per-layer loop. -/
def skipTime (st : State) (layerName : String) (t : Int) : Bool :=
  match latest_for st layerName with
  | some c => decide (t ≤ c)
  | none => false

/-- Modelled from the spec: the per-instant loop of `_process_layer` over
already sorted and filtered instants.  Instants at or before the watermark
are skipped; an instant with no missing tiles advances the watermark; in
dry-run mode nothing is fetched and the watermark does not move; otherwise
the missing tiles are fetched and the watermark advances only when all of
them succeed, while the first failure aborts the remaining instants of this
layer.  Returns the new state and the fetch attempts in order. -/
def processTimes (layerName : String) (tileCount : Nat) (existing : Int → Nat → Bool)
    (fetch : Int → Nat → FetchResult) (dryRun : Bool) :
    State → List Int → State × List (Int × Nat)
  | st, [] => (st, [])
  | st, t :: rest =>
      if skipTime st layerName t then
        processTimes layerName tileCount existing fetch dryRun st rest
      else if missingTiles existing tileCount t = [] then
        processTimes layerName tileCount existing fetch dryRun
          (update st layerName t) rest
      else if dryRun then
        processTimes layerName tileCount existing fetch dryRun st rest
      else
        let fr := fetchTiles fetch t (missingTiles existing tileCount t)
        if fr.2 then
          let p := processTimes layerName tileCount existing fetch dryRun
            (update st layerName t) rest
          (p.1, fr.1 ++ p.2)
        else (st, fr.1)

/-- The instants `_process_layer` iterates: times sorted ascending, then
filtered by the max-age cutoff (`time >= cutoff`). -/
def layerSchedule (layer : LayerInfo) (cutoff : Option Int) : List Int :=
  match cutoff with
  | none => List.insertionSort (fun a b => a ≤ b) layer.times
  | some c => (List.insertionSort (fun a b => a ≤ b) layer.times).filter (fun t => c ≤ t)

/-- Modelled from the spec: `_process_layer`. -/
def process_layer (layer : LayerInfo) (tileCount : Nat) (existing : Int → Nat → Bool)
    (fetch : Int → Nat → FetchResult) (dryRun : Bool) (cutoff : Option Int)
    (st : State) : State × List (Int × Nat) :=
  processTimes layer.name tileCount existing fetch dryRun st (layerSchedule layer cutoff)

/-- Modelled from the spec: the layer loop of `main` — layers without times
are skipped, each remaining layer is processed in turn with the state
threaded through, and the final state is what gets persisted.  The trace
tags every fetch attempt with the layer name. -/
def run_layers (fetch : String → Int → Nat → FetchResult)
    (existing : String → Int → Nat → Bool) (tileCount : String → Nat)
    (dryRun : Bool) (cutoff : Option Int) :
    State → List LayerInfo → State × List (String × Int × Nat)
  | st, [] => (st, [])
  | st, layer :: rest =>
      if layer.times = [] then
        run_layers fetch existing tileCount dryRun cutoff st rest
      else
        let r := process_layer layer (tileCount layer.name) (existing layer.name)
          (fetch layer.name) dryRun cutoff st
        let p := run_layers fetch existing tileCount dryRun cutoff r.1 rest
        (p.1, r.2.map (fun q => (layer.name, q.1, q.2)) ++ p.2)

theorem fetchTiles_all_ok (fetch : Int → Nat → FetchResult) (t : Int) :
    ∀ is : List Nat, (fetchTiles fetch t is).2 = true ↔
      ∀ i ∈ is, fetchOk (fetch t i) = true := by
  intro is
  induction is with
  | nil => simp [fetchTiles]
  | cons i rest ih =>
      by_cases h : fetchOk (fetch t i)
      · simp [fetchTiles, h, ih]
      · simp [fetchTiles, h]

theorem fetchTiles_attempt_mem (fetch : Int → Nat → FetchResult) (t : Int) :
    ∀ (is : List Nat) (p : Int × Nat), p ∈ (fetchTiles fetch t is).1 →
      p.1 = t ∧ p.2 ∈ is := by
  intro is
  induction is with
  | nil => intro p hp; simp [fetchTiles] at hp
  | cons i rest ih =>
      intro p hp
      simp only [fetchTiles] at hp
      by_cases h : fetchOk (fetch t i) = true
      · rw [if_pos h] at hp
        rcases List.mem_cons.mp hp with rfl | hp
        · exact ⟨rfl, by simp⟩
        · obtain ⟨h1, h2⟩ := ih p hp
          exact ⟨h1, by simp [h2]⟩
      · rw [if_neg h] at hp
        rcases List.mem_singleton.mp hp with rfl
        exact ⟨rfl, by simp⟩

theorem fetchTiles_ok_entries (fetch : Int → Nat → FetchResult) (t : Int)
    (is : List Nat) (hok : (fetchTiles fetch t is).2 = true) :
    ∀ p ∈ (fetchTiles fetch t is).1, fetchOk (fetch p.1 p.2) = true := by
  intro p hp
  obtain ⟨h1, h2⟩ := fetchTiles_attempt_mem fetch t is p hp
  rw [h1]
  exact (fetchTiles_all_ok fetch t is).mp hok p.2 h2

theorem optionLE_trans {a b c : Option Int} (h1 : optionLE a b) (h2 : optionLE b c) :
    optionLE a c := by
  intro x hx
  obtain ⟨y, hy, hxy⟩ := h1 x hx
  obtain ⟨z, hz, hyz⟩ := h2 y hy
  exact ⟨z, hz, le_trans hxy hyz⟩

theorem optionLE_update_self (st : State) (n : String) (t : Int) :
    optionLE (latest_for st n) (latest_for (update st n t) n) := by
  intro x hx
  rw [latest_for_update, hx]
  exact ⟨max x t, rfl, le_max_left x t⟩

theorem latest_for_update_self_ge (st : State) (n : String) (t : Int) :
    ∃ v, latest_for (update st n t) n = some v ∧ t ≤ v := by
  rw [latest_for_update]
  cases h : latest_for st n with
  | none => exact ⟨t, rfl, le_refl t⟩
  | some c => exact ⟨max c t, rfl, le_max_right c t⟩

theorem processTimes_other (layerName : String) (tileCount : Nat)
    (existing : Int → Nat → Bool) (fetch : Int → Nat → FetchResult) (dryRun : Bool) :
    ∀ (ts : List Int) (st : State) (k : String), k ≠ layerName →
      latest_for (processTimes layerName tileCount existing fetch dryRun st ts).1 k =
        latest_for st k := by
  intro ts
  induction ts with
  | nil => intro st k _; rfl
  | cons t rest ih =>
      intro st k hk
      simp only [processTimes]
      by_cases h1 : skipTime st layerName t
      · rw [if_pos h1]; exact ih st k hk
      · rw [if_neg h1]
        by_cases h2 : missingTiles existing tileCount t = []
        · rw [if_pos h2, ih _ k hk, latest_for_update_ne st layerName k t hk]
        · rw [if_neg h2]
          by_cases h3 : dryRun
          · rw [if_pos h3]; exact ih st k hk
          · rw [if_neg h3]
            by_cases h4 : (fetchTiles fetch t (missingTiles existing tileCount t)).2 = true
            · rw [if_pos h4]
              show latest_for (processTimes layerName tileCount existing fetch dryRun
                (update st layerName t) rest).1 k = latest_for st k
              rw [ih _ k hk, latest_for_update_ne st layerName k t hk]
            · rw [if_neg h4]

theorem processTimes_mono (layerName : String) (tileCount : Nat)
    (existing : Int → Nat → Bool) (fetch : Int → Nat → FetchResult) (dryRun : Bool) :
    ∀ (ts : List Int) (st : State),
      optionLE (latest_for st layerName)
        (latest_for (processTimes layerName tileCount existing fetch dryRun st ts).1
          layerName) := by
  intro ts
  induction ts with
  | nil => intro st x hx; exact ⟨x, hx, le_refl x⟩
  | cons t rest ih =>
      intro st
      simp only [processTimes]
      by_cases h1 : skipTime st layerName t
      · rw [if_pos h1]; exact ih st
      · rw [if_neg h1]
        by_cases h2 : missingTiles existing tileCount t = []
        · rw [if_pos h2]
          exact optionLE_trans (optionLE_update_self st layerName t)
            (ih (update st layerName t))
        · rw [if_neg h2]
          by_cases h3 : dryRun
          · rw [if_pos h3]; exact ih st
          · rw [if_neg h3]
            by_cases h4 : (fetchTiles fetch t (missingTiles existing tileCount t)).2 = true
            · rw [if_pos h4]
              exact optionLE_trans (optionLE_update_self st layerName t)
                (ih (update st layerName t))
            · rw [if_neg h4]
              intro x hx; exact ⟨x, hx, le_refl x⟩

theorem processTimes_attempt_mem (layerName : String) (tileCount : Nat)
    (existing : Int → Nat → Bool) (fetch : Int → Nat → FetchResult) (dryRun : Bool) :
    ∀ (ts : List Int) (st : State) (p : Int × Nat),
      p ∈ (processTimes layerName tileCount existing fetch dryRun st ts).2 →
        p.1 ∈ ts ∧ p.2 ∈ missingTiles existing tileCount p.1 := by
  intro ts
  induction ts with
  | nil => intro st p hp; simp [processTimes] at hp
  | cons t rest ih =>
      intro st p hp
      simp only [processTimes] at hp
      by_cases h1 : skipTime st layerName t
      · rw [if_pos h1] at hp
        obtain ⟨ha, hb⟩ := ih st p hp
        exact ⟨by simp [ha], hb⟩
      · rw [if_neg h1] at hp
        by_cases h2 : missingTiles existing tileCount t = []
        · rw [if_pos h2] at hp
          obtain ⟨ha, hb⟩ := ih _ p hp
          exact ⟨by simp [ha], hb⟩
        · rw [if_neg h2] at hp
          by_cases h3 : dryRun
          · rw [if_pos h3] at hp
            obtain ⟨ha, hb⟩ := ih st p hp
            exact ⟨by simp [ha], hb⟩
          · rw [if_neg h3] at hp
            by_cases h4 : (fetchTiles fetch t (missingTiles existing tileCount t)).2 = true
            · rw [if_pos h4] at hp
              rcases List.mem_append.mp hp with hin | hin
              · obtain ⟨he, hm⟩ := fetchTiles_attempt_mem fetch t _ p hin
                exact ⟨by simp [he], he ▸ hm⟩
              · obtain ⟨ha, hb⟩ := ih _ p hin
                exact ⟨by simp [ha], hb⟩
            · rw [if_neg h4] at hp
              obtain ⟨he, hm⟩ := fetchTiles_attempt_mem fetch t _ p hp
              exact ⟨by simp [he], he ▸ hm⟩

theorem skipTime_spec (st : State) (n : String) (t : Int)
    (h : skipTime st n t = true) :
    ∃ c, latest_for st n = some c ∧ t ≤ c := by
  unfold skipTime at h
  cases hc : latest_for st n with
  | none => rw [hc] at h; simp at h
  | some c =>
      rw [hc] at h
      exact ⟨c, rfl, by simpa using h⟩

theorem instantComplete_of_empty (existing : Int → Nat → Bool)
    (fetch : Int → Nat → FetchResult) (tileCount : Nat) (t : Int)
    (h : missingTiles existing tileCount t = []) :
    instantComplete existing fetch tileCount t = true := by
  simp [instantComplete, h]

theorem instantComplete_of_fetch (existing : Int → Nat → Bool)
    (fetch : Int → Nat → FetchResult) (tileCount : Nat) (t : Int)
    (h : (fetchTiles fetch t (missingTiles existing tileCount t)).2 = true) :
    instantComplete existing fetch tileCount t = true := by
  rw [instantComplete, List.all_eq_true]
  exact fun i hi => (fetchTiles_all_ok fetch t _).mp h i hi

theorem not_instantComplete_of_fail (existing : Int → Nat → Bool)
    (fetch : Int → Nat → FetchResult) (tileCount : Nat) (t : Int) (i : Nat)
    (hi : i ∈ missingTiles existing tileCount t)
    (hfail : fetchOk (fetch t i) = false) :
    ¬instantComplete existing fetch tileCount t = true := by
  rw [instantComplete, List.all_eq_true]
  intro hall
  rw [hall i hi] at hfail
  simp at hfail

theorem update_watermark_cases (st : State) (n : String) (t0 v : Int)
    (hl : latest_for (update st n t0) n = some v) :
    latest_for st n = some v ∨ v = t0 := by
  rw [latest_for_update] at hl
  cases hold : latest_for st n with
  | none =>
      rw [hold] at hl
      simp at hl
      exact Or.inr (by omega)
  | some c =>
      rw [hold] at hl
      simp only [Option.some.injEq] at hl
      rcases le_total t0 c with hle | hle
      · rw [max_eq_left hle] at hl
        exact Or.inl (by rw [hl])
      · rw [max_eq_right hle] at hl
        exact Or.inr hl.symm

theorem processTimes_fail_le (layerName : String) (tileCount : Nat)
    (existing : Int → Nat → Bool) (fetch : Int → Nat → FetchResult) (dryRun : Bool) :
    ∀ ts : List Int, List.Sorted (· ≤ ·) ts → ∀ (st : State) (t : Int) (i : Nat),
      (t, i) ∈ (processTimes layerName tileCount existing fetch dryRun st ts).2 →
      fetchOk (fetch t i) = false →
      ∀ (t' : Int) (i' : Nat),
        (t', i') ∈ (processTimes layerName tileCount existing fetch dryRun st ts).2 →
        t' ≤ t := by
  intro ts
  induction ts with
  | nil => intro _ st t i hatt _; simp [processTimes] at hatt
  | cons t0 rest ih =>
      intro hs st t i hatt hfail t' i' hatt'
      rw [List.sorted_cons] at hs
      obtain ⟨hall, hrest⟩ := hs
      simp only [processTimes] at hatt hatt'
      by_cases h1 : skipTime st layerName t0
      · rw [if_pos h1] at hatt hatt'
        exact ih hrest st t i hatt hfail t' i' hatt'
      · rw [if_neg h1] at hatt hatt'
        by_cases h2 : missingTiles existing tileCount t0 = []
        · rw [if_pos h2] at hatt hatt'
          exact ih hrest _ t i hatt hfail t' i' hatt'
        · rw [if_neg h2] at hatt hatt'
          by_cases h3 : dryRun = true
          · rw [if_pos h3] at hatt hatt'
            exact ih hrest st t i hatt hfail t' i' hatt'
          · rw [if_neg h3] at hatt hatt'
            by_cases h4 : (fetchTiles fetch t0 (missingTiles existing tileCount t0)).2 = true
            · rw [if_pos h4] at hatt hatt'
              have hnotin : (t, i) ∉
                  (fetchTiles fetch t0 (missingTiles existing tileCount t0)).1 := by
                intro hin
                have := fetchTiles_ok_entries fetch t0 _ h4 (t, i) hin
                rw [hfail] at this
                exact Bool.false_ne_true this
              have hrec : (t, i) ∈ (processTimes layerName tileCount existing fetch dryRun
                  (update st layerName t0) rest).2 := by
                rcases List.mem_append.mp hatt with hin | hin
                · exact absurd hin hnotin
                · exact hin
              have htrest : t ∈ rest :=
                (processTimes_attempt_mem layerName tileCount existing fetch dryRun rest
                  (update st layerName t0) (t, i) hrec).1
              rcases List.mem_append.mp hatt' with hin' | hin'
              · have := (fetchTiles_attempt_mem fetch t0 _ (t', i') hin').1
                simp only at this
                rw [this]
                exact hall t htrest
              · exact ih hrest _ t i hrec hfail t' i' hin'
            · rw [if_neg h4] at hatt hatt'
              have h1t := (fetchTiles_attempt_mem fetch t0 _ (t, i) hatt).1
              have h2t := (fetchTiles_attempt_mem fetch t0 _ (t', i') hatt').1
              simp only at h1t h2t
              rw [h1t, h2t]

theorem processTimes_fail_watermark (layerName : String) (tileCount : Nat)
    (existing : Int → Nat → Bool) (fetch : Int → Nat → FetchResult) :
    ∀ ts : List Int, List.Sorted (· ≤ ·) ts → ∀ (st : State) (t : Int) (i : Nat),
      (t, i) ∈ (processTimes layerName tileCount existing fetch false st ts).2 →
      fetchOk (fetch t i) = false →
      ∀ v, latest_for
          (processTimes layerName tileCount existing fetch false st ts).1 layerName = some v →
        latest_for st layerName = some v ∨
          (v ∈ ts ∧ instantComplete existing fetch tileCount v = true ∧ v < t) := by
  intro ts
  induction ts with
  | nil => intro _ st t i hatt _; simp [processTimes] at hatt
  | cons t0 rest ih =>
      intro hs st t i hatt hfail v hv
      rw [List.sorted_cons] at hs
      obtain ⟨hall, hrest⟩ := hs
      simp only [processTimes] at hatt hv
      by_cases h1 : skipTime st layerName t0
      · rw [if_pos h1] at hatt hv
        rcases ih hrest st t i hatt hfail v hv with hl | ⟨hm, hc, hlt⟩
        · exact Or.inl hl
        · exact Or.inr ⟨List.mem_cons_of_mem t0 hm, hc, hlt⟩
      · rw [if_neg h1] at hatt hv
        by_cases h2 : missingTiles existing tileCount t0 = []
        · rw [if_pos h2] at hatt hv
          have hcom : instantComplete existing fetch tileCount t0 = true :=
            instantComplete_of_empty existing fetch tileCount t0 h2
          have hmem : t ∈ rest ∧ i ∈ missingTiles existing tileCount t :=
            processTimes_attempt_mem layerName tileCount existing fetch false rest
              (update st layerName t0) (t, i) hatt
          have ht0t : t0 < t := by
            rcases lt_or_eq_of_le (hall t hmem.1) with h | h
            · exact h
            · exfalso
              rw [← h] at hmem
              rw [h2] at hmem
              exact absurd hmem.2 (List.not_mem_nil i)
          rcases ih hrest _ t i hatt hfail v hv with hl | ⟨hm, hc, hlt⟩
          · rcases update_watermark_cases st layerName t0 v hl with hold | hvt0
            · exact Or.inl hold
            · exact Or.inr ⟨by rw [hvt0]; exact List.mem_cons_self t0 rest,
                hvt0 ▸ hcom, by omega⟩
          · exact Or.inr ⟨List.mem_cons_of_mem t0 hm, hc, hlt⟩
        · rw [if_neg h2] at hatt hv
          rw [if_neg (by simp : ¬(false = true))] at hatt hv
          by_cases h4 : (fetchTiles fetch t0 (missingTiles existing tileCount t0)).2 = true
          · rw [if_pos h4] at hatt hv
            have hcom : instantComplete existing fetch tileCount t0 = true :=
              instantComplete_of_fetch existing fetch tileCount t0 h4
            have hrec : (t, i) ∈ (processTimes layerName tileCount existing fetch false
                (update st layerName t0) rest).2 := by
              rcases List.mem_append.mp hatt with hin | hin
              · exfalso
                have := fetchTiles_ok_entries fetch t0 _ h4 (t, i) hin
                rw [hfail] at this
                exact Bool.false_ne_true this
              · exact hin
            have hmem : t ∈ rest ∧ i ∈ missingTiles existing tileCount t :=
              processTimes_attempt_mem layerName tileCount existing fetch false rest
                (update st layerName t0) (t, i) hrec
            have ht0t : t0 < t := by
              rcases lt_or_eq_of_le (hall t hmem.1) with h | h
              · exact h
              · exfalso
                rw [← h] at hfail hmem
                exact not_instantComplete_of_fail existing fetch tileCount t0 i
                  hmem.2 hfail hcom
            rcases ih hrest _ t i hrec hfail v hv with hl | ⟨hm, hc, hlt⟩
            · rcases update_watermark_cases st layerName t0 v hl with hold | hvt0
              · exact Or.inl hold
              · exact Or.inr ⟨by rw [hvt0]; exact List.mem_cons_self t0 rest,
                  hvt0 ▸ hcom, by omega⟩
            · exact Or.inr ⟨List.mem_cons_of_mem t0 hm, hc, hlt⟩
          · rw [if_neg h4] at hatt hv
            exact Or.inl hv

theorem processTimes_complete_ge (layerName : String) (tileCount : Nat)
    (existing : Int → Nat → Bool) (fetch : Int → Nat → FetchResult) :
    ∀ ts : List Int, List.Sorted (· ≤ ·) ts → ∀ (st : State) (t : Int) (i : Nat),
      (t, i) ∈ (processTimes layerName tileCount existing fetch false st ts).2 →
      fetchOk (fetch t i) = false →
      ∀ u ∈ ts, instantComplete existing fetch tileCount u = true → u < t →
        ∃ v, latest_for
            (processTimes layerName tileCount existing fetch false st ts).1 layerName =
          some v ∧ u ≤ v := by
  intro ts
  induction ts with
  | nil => intro _ st t i hatt _; simp [processTimes] at hatt
  | cons t0 rest ih =>
      intro hs st t i hatt hfail u hu hcom hut
      rw [List.sorted_cons] at hs
      obtain ⟨hall, hrest⟩ := hs
      simp only [processTimes] at hatt ⊢
      by_cases h1 : skipTime st layerName t0
      · rw [if_pos h1] at hatt ⊢
        rcases List.mem_cons.mp hu with rfl | humem
        · obtain ⟨c, hc, huc⟩ := skipTime_spec st layerName u h1
          obtain ⟨v, hv, hcv⟩ := processTimes_mono layerName tileCount existing fetch
            false rest st c hc
          exact ⟨v, hv, le_trans huc hcv⟩
        · exact ih hrest st t i hatt hfail u humem hcom hut
      · rw [if_neg h1] at hatt ⊢
        by_cases h2 : missingTiles existing tileCount t0 = []
        · rw [if_pos h2] at hatt ⊢
          rcases List.mem_cons.mp hu with rfl | humem
          · obtain ⟨c, hc, huc⟩ := latest_for_update_self_ge st layerName u
            obtain ⟨v, hv, hcv⟩ := processTimes_mono layerName tileCount existing fetch
              false rest (update st layerName u) c hc
            exact ⟨v, hv, le_trans huc hcv⟩
          · exact ih hrest _ t i hatt hfail u humem hcom hut
        · rw [if_neg h2] at hatt ⊢
          rw [if_neg (by simp : ¬(false = true))] at hatt ⊢
          by_cases h4 : (fetchTiles fetch t0 (missingTiles existing tileCount t0)).2 = true
          · rw [if_pos h4] at hatt ⊢
            have hrec : (t, i) ∈ (processTimes layerName tileCount existing fetch false
                (update st layerName t0) rest).2 := by
              rcases List.mem_append.mp hatt with hin | hin
              · exfalso
                have := fetchTiles_ok_entries fetch t0 _ h4 (t, i) hin
                rw [hfail] at this
                exact Bool.false_ne_true this
              · exact hin
            rcases List.mem_cons.mp hu with rfl | humem
            · obtain ⟨c, hc, huc⟩ := latest_for_update_self_ge st layerName u
              obtain ⟨v, hv, hcv⟩ := processTimes_mono layerName tileCount existing fetch
                false rest (update st layerName u) c hc
              exact ⟨v, hv, le_trans huc hcv⟩
            · exact ih hrest _ t i hrec hfail u humem hcom hut
          · rw [if_neg h4] at hatt ⊢
            exfalso
            have ht0 := (fetchTiles_attempt_mem fetch t0 _ (t, i) hatt).1
            simp only at ht0
            rcases List.mem_cons.mp hu with rfl | humem
            · omega
            · have := hall u humem
              omega

theorem processTimes_congr (layerName : String) (tileCount : Nat)
    (existing : Int → Nat → Bool) (fetch : Int → Nat → FetchResult) (dryRun : Bool) :
    ∀ (ts : List Int) (st1 st2 : State),
      latest_for st1 layerName = latest_for st2 layerName →
      latest_for (processTimes layerName tileCount existing fetch dryRun st1 ts).1 layerName =
        latest_for (processTimes layerName tileCount existing fetch dryRun st2 ts).1 layerName
      ∧ (processTimes layerName tileCount existing fetch dryRun st1 ts).2 =
        (processTimes layerName tileCount existing fetch dryRun st2 ts).2 := by
  intro ts
  induction ts with
  | nil => intro st1 st2 h; exact ⟨h, rfl⟩
  | cons t rest ih =>
      intro st1 st2 h
      have hskip : skipTime st1 layerName t = skipTime st2 layerName t := by
        unfold skipTime
        rw [h]
      have hupd : latest_for (update st1 layerName t) layerName =
          latest_for (update st2 layerName t) layerName := by
        rw [latest_for_update, latest_for_update, h]
      simp only [processTimes]
      by_cases h1 : skipTime st1 layerName t = true
      · have h1' : skipTime st2 layerName t = true := by rw [← hskip]; exact h1
        rw [if_pos h1, if_pos h1']
        exact ih st1 st2 h
      · have h1' : ¬skipTime st2 layerName t = true := by rw [← hskip]; exact h1
        rw [if_neg h1, if_neg h1']
        by_cases h2 : missingTiles existing tileCount t = []
        · rw [if_pos h2, if_pos h2]
          exact ih _ _ hupd
        · rw [if_neg h2, if_neg h2]
          by_cases h3 : dryRun = true
          · rw [if_pos h3, if_pos h3]
            exact ih st1 st2 h
          · rw [if_neg h3, if_neg h3]
            by_cases h4 : (fetchTiles fetch t (missingTiles existing tileCount t)).2 = true
            · rw [if_pos h4, if_pos h4]
              obtain ⟨ha, hb⟩ := ih _ _ hupd
              exact ⟨ha, by rw [hb]⟩
            · rw [if_neg h4, if_neg h4]
              exact ⟨h, rfl⟩

/-- Two states that agree on every layer except `n`. -/
def agreeExcept (n : String) (st1 st2 : State) : Prop :=
  ∀ k, k ≠ n → latest_for st1 k = latest_for st2 k

theorem processTimes_agree (n layerName : String) (tileCount : Nat)
    (existing : Int → Nat → Bool) (fetch : Int → Nat → FetchResult) (dryRun : Bool)
    (ts : List Int) (st1 st2 : State) (hag : agreeExcept n st1 st2)
    (hne : layerName ≠ n) :
    agreeExcept n (processTimes layerName tileCount existing fetch dryRun st1 ts).1
      (processTimes layerName tileCount existing fetch dryRun st2 ts).1 := by
  intro k hk
  by_cases hkl : k = layerName
  · rw [hkl]
    exact (processTimes_congr layerName tileCount existing fetch dryRun ts st1 st2
      (hag layerName hne)).1
  · rw [processTimes_other layerName tileCount existing fetch dryRun ts st1 k hkl,
      processTimes_other layerName tileCount existing fetch dryRun ts st2 k hkl]
    exact hag k hk

theorem run_layers_preserves (fetch : String → Int → Nat → FetchResult)
    (existing : String → Int → Nat → Bool) (tileCount : String → Nat)
    (dryRun : Bool) (cutoff : Option Int) :
    ∀ (layers : List LayerInfo) (st : State) (k : String),
      k ∉ layers.map LayerInfo.name →
      latest_for (run_layers fetch existing tileCount dryRun cutoff st layers).1 k =
        latest_for st k := by
  intro layers
  induction layers with
  | nil => intro st k _; rfl
  | cons layer rest ih =>
      intro st k hk
      simp only [List.map_cons, List.mem_cons] at hk
      push_neg at hk
      simp only [run_layers]
      by_cases ht : layer.times = []
      · rw [if_pos ht]
        exact ih st k hk.2
      · rw [if_neg ht]
        show latest_for (run_layers fetch existing tileCount dryRun cutoff
          (process_layer layer (tileCount layer.name) (existing layer.name)
            (fetch layer.name) dryRun cutoff st).1 rest).1 k = latest_for st k
        rw [ih _ k hk.2]
        exact processTimes_other layer.name (tileCount layer.name) (existing layer.name)
          (fetch layer.name) dryRun (layerSchedule layer cutoff) st k hk.1

theorem run_layers_split (fetch : String → Int → Nat → FetchResult)
    (existing : String → Int → Nat → Bool) (tileCount : String → Nat)
    (dryRun : Bool) (cutoff : Option Int) :
    ∀ (xs ys : List LayerInfo) (st : State),
      (run_layers fetch existing tileCount dryRun cutoff st (xs ++ ys)).1 =
        (run_layers fetch existing tileCount dryRun cutoff
          (run_layers fetch existing tileCount dryRun cutoff st xs).1 ys).1 := by
  intro xs
  induction xs with
  | nil => intro ys st; rfl
  | cons layer rest ih =>
      intro ys st
      simp only [List.cons_append, run_layers]
      by_cases ht : layer.times = []
      · rw [if_pos ht, if_pos ht]
        exact ih ys st
      · rw [if_neg ht, if_neg ht]
        exact ih ys _

theorem run_layers_agree (fetch : String → Int → Nat → FetchResult)
    (existing : String → Int → Nat → Bool) (tileCount : String → Nat)
    (dryRun : Bool) (cutoff : Option Int) (n : String) :
    ∀ (layers : List LayerInfo) (st1 st2 : State), agreeExcept n st1 st2 →
      n ∉ layers.map LayerInfo.name →
      agreeExcept n (run_layers fetch existing tileCount dryRun cutoff st1 layers).1
        (run_layers fetch existing tileCount dryRun cutoff st2 layers).1 := by
  intro layers
  induction layers with
  | nil => intro st1 st2 hag _; exact hag
  | cons layer rest ih =>
      intro st1 st2 hag hn
      simp only [List.map_cons, List.mem_cons] at hn
      push_neg at hn
      simp only [run_layers]
      by_cases ht : layer.times = []
      · rw [if_pos ht, if_pos ht]
        exact ih st1 st2 hag hn.2
      · rw [if_neg ht, if_neg ht]
        refine ih _ _ ?_ hn.2
        exact processTimes_agree n layer.name (tileCount layer.name)
          (existing layer.name) (fetch layer.name) dryRun
          (layerSchedule layer cutoff) st1 st2 hag (fun h => hn.1 h.symm)

theorem layerSchedule_sorted (layer : LayerInfo) (cutoff : Option Int) :
    List.Sorted (· ≤ ·) (layerSchedule layer cutoff) := by
  have hs : List.Sorted (· ≤ ·)
      (List.insertionSort (fun a b => a ≤ b) layer.times) :=
    List.sorted_insertionSort (fun a b => a ≤ b) layer.times
  unfold layerSchedule
  cases cutoff with
  | none => exact hs
  | some c => exact List.Pairwise.filter _ hs

/-- C2 (spec-modelled): when a tile fetch for one layer fails at some
instant, (a) no strictly later instant of that layer is attempted this run,
(b) the layer's watermark is its previous value or a fully completed instant
strictly before the failure, (b') and is at least every fully completed
instant before the failure — together: it stays at the last fully completed
instant; (c) the state reached for the failing layer is still in the final
(persisted) state; and (d) every other layer ends exactly as in a run
without the failing layer: only the failing layer's remaining work is
aborted. -/
theorem layer_failure_isolated
    (fetch : String → Int → Nat → FetchResult) (existing : String → Int → Nat → Bool)
    (tileCount : String → Nat) (cutoff : Option Int) (st0 : State)
    (pre post : List LayerInfo) (L : LayerInfo)
    (hname : L.name ∉ (pre ++ post).map LayerInfo.name)
    (stPre : State)
    (hst : stPre = (run_layers fetch existing tileCount false cutoff st0 pre).1)
    (r : State × List (Int × Nat))
    (hr : r = process_layer L (tileCount L.name) (existing L.name) (fetch L.name)
      false cutoff stPre)
    (t : Int) (i : Nat) (hatt : (t, i) ∈ r.2)
    (hfail : fetchOk (fetch L.name t i) = false) :
    (∀ t' i', (t', i') ∈ r.2 → t' ≤ t)
    ∧ (∀ v, latest_for r.1 L.name = some v →
        latest_for stPre L.name = some v ∨
          (v ∈ layerSchedule L cutoff
            ∧ instantComplete (existing L.name) (fetch L.name) (tileCount L.name) v = true
            ∧ v < t))
    ∧ (∀ u ∈ layerSchedule L cutoff,
        instantComplete (existing L.name) (fetch L.name) (tileCount L.name) u = true →
        u < t → ∃ v, latest_for r.1 L.name = some v ∧ u ≤ v)
    ∧ latest_for (run_layers fetch existing tileCount false cutoff st0
        (pre ++ L :: post)).1 L.name = latest_for r.1 L.name
    ∧ (∀ k, k ≠ L.name →
        latest_for (run_layers fetch existing tileCount false cutoff st0
          (pre ++ L :: post)).1 k =
        latest_for (run_layers fetch existing tileCount false cutoff st0
          (pre ++ post)).1 k) := by
  have hpost : L.name ∉ post.map LayerInfo.name := by
    intro hmem
    exact hname (by simp [hmem])
  subst hr
  subst hst
  set stPre := (run_layers fetch existing tileCount false cutoff st0 pre).1 with hstdef
  refine ⟨?_, ?_, ?_, ?_, ?_⟩
  · intro t' i' hatt'
    exact processTimes_fail_le L.name (tileCount L.name) (existing L.name) (fetch L.name)
      false (layerSchedule L cutoff) (layerSchedule_sorted L cutoff) stPre t i hatt hfail
      t' i' hatt'
  · intro v hv
    exact processTimes_fail_watermark L.name (tileCount L.name) (existing L.name)
      (fetch L.name) (layerSchedule L cutoff) (layerSchedule_sorted L cutoff) stPre t i
      hatt hfail v hv
  · intro u hu hcom hut
    exact processTimes_complete_ge L.name (tileCount L.name) (existing L.name)
      (fetch L.name) (layerSchedule L cutoff) (layerSchedule_sorted L cutoff) stPre t i
      hatt hfail u hu hcom hut
  · rw [run_layers_split fetch existing tileCount false cutoff pre (L :: post) st0]
    rw [← hstdef]
    by_cases ht : L.times = []
    · have hsched : layerSchedule L cutoff = [] := by
        unfold layerSchedule
        rw [ht]
        cases cutoff <;> rfl
      have hre : (process_layer L (tileCount L.name) (existing L.name) (fetch L.name)
          false cutoff stPre).1 = stPre := by
        unfold process_layer
        rw [hsched]
        rfl
      simp only [run_layers]
      rw [if_pos ht, hre]
      exact run_layers_preserves fetch existing tileCount false cutoff post stPre
        L.name hpost
    · simp only [run_layers]
      rw [if_neg ht]
      exact run_layers_preserves fetch existing tileCount false cutoff post _
        L.name hpost
  · intro k hk
    rw [run_layers_split fetch existing tileCount false cutoff pre (L :: post) st0,
      run_layers_split fetch existing tileCount false cutoff pre post st0, ← hstdef]
    by_cases ht : L.times = []
    · simp only [run_layers]
      rw [if_pos ht]
    · simp only [run_layers]
      rw [if_neg ht]
      have hag : agreeExcept L.name
          (process_layer L (tileCount L.name) (existing L.name) (fetch L.name)
            false cutoff stPre).1 stPre := by
        intro k' hk'
        exact processTimes_other L.name (tileCount L.name) (existing L.name)
          (fetch L.name) false (layerSchedule L cutoff) stPre k' hk'
      exact run_layers_agree fetch existing tileCount false cutoff L.name post _ stPre
        hag hpost k hk

/-- Witness for `layer_failure_isolated`: a single layer with one instant
whose only tile fetch hits a transport error — the persistence conjunct
instantiated (the failing layer's state in the final run state equals its
process_layer result). -/
theorem layer_failure_isolated_witness :
    latest_for (run_layers (fun _ _ _ => FetchResult.transportError "boom")
        (fun _ _ _ => false) (fun _ => 1) false none []
        ([] ++ LayerInfo.mk "radar" "R" [0] none :: [])).1 "radar" =
      latest_for (process_layer (LayerInfo.mk "radar" "R" [0] none) 1
        (fun _ _ => false) (fun _ _ => FetchResult.transportError "boom")
        false none []).1 "radar" :=
  (layer_failure_isolated (fun _ _ _ => FetchResult.transportError "boom")
    (fun _ _ _ => false) (fun _ => 1) none [] [] []
    (LayerInfo.mk "radar" "R" [0] none) (by simp) [] rfl
    (process_layer (LayerInfo.mk "radar" "R" [0] none) 1
      (fun _ _ => false) (fun _ _ => FetchResult.transportError "boom") false none [])
    rfl 0 0 (by decide) rfl).2.2.2.1

/-- C6 (spec-modelled): a successful HTTP response whose content type is not
an image type leaves the filesystem unchanged (the destination tile file is
not written) and yields a failure, which the per-layer loop treats like a
transport error (`fetchOk` is false). -/
theorem non_image_content_rejected (resp : HttpResp) (dest : String) (fs : FileSys)
    (h : isImageContentType resp.contentType = false) :
    (download_tile (FetchResult.resp resp) dest fs).1 = fs
    ∧ (∃ msg, (download_tile (FetchResult.resp resp) dest fs).2 = some msg)
    ∧ fetchOk (FetchResult.resp resp) = false := by
  refine ⟨?_, ?_, ?_⟩
  · simp [download_tile, h]
  · exact ⟨"Unexpected content type: " ++ resp.contentType, by simp [download_tile, h]⟩
  · simp [fetchOk, h]

/-- Witness for `non_image_content_rejected` at content type `text/html`. -/
theorem non_image_content_rejected_witness :
    (download_tile (FetchResult.resp (HttpResp.mk "text/html" [1, 2])) "tile.png" []).1 = []
    ∧ (∃ msg, (download_tile (FetchResult.resp (HttpResp.mk "text/html" [1, 2]))
        "tile.png" []).2 = some msg)
    ∧ fetchOk (FetchResult.resp (HttpResp.mk "text/html" [1, 2])) = false :=
  non_image_content_rejected (HttpResp.mk "text/html" [1, 2]) "tile.png" [] (by decide)

end DmiRadar
